import Mathlib

/-!
# Verification of rustus `FileInfo` metadata model and protocol dispatcher

Shallow embedding of `src/info_storages/models/file_info.rs` and
`src/protocol/mod.rs` of the rustus TUS server, with theorems about the
metadata-string encoding, the SHA-256 finalization, the serde round trip
and the extension dispatcher.

Strings are modelled as lists of bytes (`ByteStr`), since the base64
encoding in the source operates on the UTF-8 bytes of Rust `String`s.
-/

/-- A Rust `String`/byte sequence, modelled as its list of bytes. -/
abbrev ByteStr := List Nat

/-- A Rust `HashMap<String, String>`, modelled as an association list of
byte strings.  Rust's iteration order over a `HashMap` is arbitrary; the
list fixes one order, which is sound because every claim about the map is
either order-independent or quantifies over the rendered order. -/
abbrev Metadata := List (ByteStr × ByteStr)

/-! ## Base64 (standard alphabet, with `=` padding)

Embedding of `base64::engine::general_purpose::STANDARD.encode`, used by
`FileInfo::get_metadata_string`. -/

/-- ASCII byte of the standard-base64 alphabet character for sextet `s`. -/
def b64c (s : Nat) : Nat :=
  if s < 26 then 65 + s
  else if s < 52 then 97 + (s - 26)
  else if s < 62 then 48 + (s - 52)
  else if s = 62 then 43
  else 47

/-- Inverse of `b64c`: sextet value of an alphabet byte, `none` for a byte
outside the alphabet (including the padding byte `=`). -/
def b64d (c : Nat) : Option Nat :=
  if 65 ≤ c ∧ c ≤ 90 then some (c - 65)
  else if 97 ≤ c ∧ c ≤ 122 then some (c - 97 + 26)
  else if 48 ≤ c ∧ c ≤ 57 then some (c - 48 + 52)
  else if c = 43 then some 62
  else if c = 47 then some 63
  else none

/-- Standard base64 encoding of a byte string, with `=` padding (ASCII 61),
as produced by `general_purpose::STANDARD.encode`. -/
def b64EncodeBytes : List Nat → List Nat
  | a :: b :: c :: rest =>
    let n := a * 65536 + b * 256 + c
    b64c (n / 262144) :: b64c (n / 4096 % 64) :: b64c (n / 64 % 64) :: b64c (n % 64) ::
      b64EncodeBytes rest
  | [a, b] =>
    let n := a * 256 + b
    [b64c (n / 1024), b64c (n / 16 % 64), b64c (n % 16 * 4), 61]
  | [a] => [b64c (a / 4), b64c (a % 4 * 16), 61, 61]
  | [] => []

/-- Standard base64 decoding, the inverse direction described by the spec:
fails (`none`) on any byte outside the alphabet or on a malformed group. -/
def b64DecodeBytes : List Nat → Option (List Nat)
  | c0 :: c1 :: c2 :: c3 :: rest =>
    if c2 = 61 ∧ c3 = 61 ∧ rest = [] then
      match b64d c0, b64d c1 with
      | some s0, some s1 => some [s0 * 4 + s1 / 16]
      | _, _ => none
    else if c3 = 61 ∧ rest = [] then
      match b64d c0, b64d c1, b64d c2 with
      | some s0, some s1, some s2 =>
        let n := s0 * 1024 + s1 * 16 + s2 / 4
        some [n / 256, n % 256]
      | _, _, _ => none
    else
      match b64d c0, b64d c1, b64d c2, b64d c3, b64DecodeBytes rest with
      | some s0, some s1, some s2, some s3, some tail =>
        let n := s0 * 262144 + s1 * 4096 + s2 * 64 + s3
        some (n / 65536 :: n / 256 % 256 :: n % 256 :: tail)
      | _, _, _, _, _ => none
  | [] => some []
  | _ => none

/-! ## Splitting and joining byte strings -/

/-- Rust's `Vec::join` with a one-byte separator, as in `result.join(",")`. -/
def joinWith (sep : Nat) : List ByteStr → ByteStr
  | [] => []
  | [x] => x
  | x :: xs => x ++ sep :: joinWith sep xs

/-- Split a byte string on every occurrence of `sep` (the spec's
"split the string on commas"). -/
def splitOnByte (sep : Nat) : ByteStr → List ByteStr
  | [] => [[]]
  | b :: rest =>
    if b = sep then [] :: splitOnByte sep rest
    else
      match splitOnByte sep rest with
      | [] => [[b]]
      | p :: ps => (b :: p) :: ps

/-- Split a byte string at the first occurrence of `sep` (the spec's
"split each entry on the first space into key and base64 value");
`none` when `sep` does not occur. -/
def splitFirstByte (sep : Nat) : ByteStr → Option (ByteStr × ByteStr)
  | [] => none
  | b :: rest =>
    if b = sep then some ([], rest)
    else (splitFirstByte sep rest).map (fun p => (b :: p.1, p.2))

/-! ## SHA-256 (`sha2::Sha256`)

Embedding of the SHA-256 function used by `FileInfo::finalize_sha256`.
The Rust accumulator object is modelled by the list of bytes fed to it so
far (`Sha256::new()` is the empty list); `finalize` computes the digest of
those bytes.  Words are `Nat`s kept below `2^32` by explicit reduction. -/

/-- Addition modulo `2^32`. -/
def add32 (x y : Nat) : Nat := (x + y) % 4294967296

/-- Right rotation of a 32-bit word. -/
def rotr32 (x k : Nat) : Nat := (x >>> k ||| x <<< (32 - k)) % 4294967296

/-- Bitwise complement within 32 bits. -/
def not32 (x : Nat) : Nat := x ^^^ 4294967295

def sha256BigSigma0 (x : Nat) : Nat := rotr32 x 2 ^^^ rotr32 x 13 ^^^ rotr32 x 22

def sha256BigSigma1 (x : Nat) : Nat := rotr32 x 6 ^^^ rotr32 x 11 ^^^ rotr32 x 25

def sha256SmallSigma0 (x : Nat) : Nat := rotr32 x 7 ^^^ rotr32 x 18 ^^^ (x >>> 3)

def sha256SmallSigma1 (x : Nat) : Nat := rotr32 x 17 ^^^ rotr32 x 19 ^^^ (x >>> 10)

def sha256Ch (x y z : Nat) : Nat := (x &&& y) ^^^ (not32 x &&& z)

def sha256Maj (x y z : Nat) : Nat := (x &&& y) ^^^ (x &&& z) ^^^ (y &&& z)

/-- The eight 32-bit words of SHA-256 working state. -/
structure Sha256State where
  a : Nat
  b : Nat
  c : Nat
  d : Nat
  e : Nat
  f : Nat
  g : Nat
  hh : Nat

/-- SHA-256 initial hash value. -/
def sha256Init : Sha256State :=
  ⟨1779033703, 3144134277, 1013904242, 2773480762,
   1359893119, 2600822924, 528734635, 1541459225⟩

/-- SHA-256 round constants. -/
def sha256K : List Nat :=
  [1116352408, 1899447441, 3049323471, 3921009573, 961987163, 1508970993,
   2453635748, 2870763221, 3624381080, 310598401, 607225278, 1426881987,
   1925078388, 2162078206, 2614888103, 3248222580, 3835390401, 4022224774,
   264347078, 604807628, 770255983, 1249150122, 1555081692, 1996064986,
   2554220882, 2821834349, 2952996808, 3210313671, 3336571891, 3584528711,
   113926993, 338241895, 666307205, 773529912, 1294757372, 1396182291,
   1695183700, 1986661051, 2177026350, 2456956037, 2730485921, 2820302411,
   3259730800, 3345764771, 3516065817, 3600352804, 4094571909, 275423344,
   430227734, 506948616, 659060556, 883997877, 958139571, 1322822218,
   1537002063, 1747873779, 1955562222, 2024104815, 2227730452, 2361852424,
   2428436474, 2756734187, 3204031479, 3329325298]

/-- The sixteen big-endian 32-bit words of a 64-byte block. -/
def sha256BlockWords (block : List Nat) : List Nat :=
  (List.range 16).map (fun i =>
    block.getD (4 * i) 0 * 16777216 + block.getD (4 * i + 1) 0 * 65536 +
      block.getD (4 * i + 2) 0 * 256 + block.getD (4 * i + 3) 0)

/-- Next word of the message schedule from the words produced so far. -/
def sha256ScheduleStep (ws : List Nat) : Nat :=
  let l := ws.length
  add32 (add32 (sha256SmallSigma1 (ws.getD (l - 2) 0)) (ws.getD (l - 7) 0))
    (add32 (sha256SmallSigma0 (ws.getD (l - 15) 0)) (ws.getD (l - 16) 0))

/-- The 64-word message schedule of a block. -/
def sha256Schedule (block : List Nat) : List Nat :=
  (List.range 48).foldl (fun ws _ => ws ++ [sha256ScheduleStep ws]) (sha256BlockWords block)

/-- One SHA-256 round, consuming a round constant and a schedule word. -/
def sha256Round (st : Sha256State) (kw : Nat × Nat) : Sha256State :=
  let t1 := add32 st.hh (add32 (sha256BigSigma1 st.e)
    (add32 (sha256Ch st.e st.f st.g) (add32 kw.1 kw.2)))
  let t2 := add32 (sha256BigSigma0 st.a) (sha256Maj st.a st.b st.c)
  ⟨add32 t1 t2, st.a, st.b, st.c, add32 st.d t1, st.e, st.f, st.g⟩

/-- Compression of one 64-byte block into the hash state. -/
def sha256Compress (st : Sha256State) (block : List Nat) : Sha256State :=
  let r := (sha256K.zip (sha256Schedule block)).foldl sha256Round st
  ⟨add32 st.a r.a, add32 st.b r.b, add32 st.c r.c, add32 st.d r.d,
   add32 st.e r.e, add32 st.f r.f, add32 st.g r.g, add32 st.hh r.hh⟩

/-- The four big-endian bytes of a 32-bit word. -/
def bytesBE4 (w : Nat) : List Nat :=
  [w / 16777216 % 256, w / 65536 % 256, w / 256 % 256, w % 256]

/-- The eight big-endian bytes of a 64-bit value. -/
def bytesBE8 (n : Nat) : List Nat :=
  [n / 72057594037927936 % 256, n / 281474976710656 % 256, n / 1099511627776 % 256,
   n / 4294967296 % 256, n / 16777216 % 256, n / 65536 % 256, n / 256 % 256, n % 256]

/-- SHA-256 padding: `128`, zeros to 56 mod 64, then the 64-bit bit length. -/
def sha256Pad (msg : List Nat) : List Nat :=
  let len := msg.length
  let zeros := (64 - (len + 9) % 64) % 64
  msg ++ 128 :: (List.replicate zeros 0 ++ bytesBE8 (len * 8 % 18446744073709551616))

/-- The 32 bytes of the final hash state. -/
def sha256StateBytes (st : Sha256State) : List Nat :=
  bytesBE4 st.a ++ bytesBE4 st.b ++ bytesBE4 st.c ++ bytesBE4 st.d ++
    bytesBE4 st.e ++ bytesBE4 st.f ++ bytesBE4 st.g ++ bytesBE4 st.hh

/-- SHA-256 digest (32 bytes) of a byte string. -/
def sha256digest (msg : List Nat) : List Nat :=
  let padded := sha256Pad msg
  sha256StateBytes ((List.range (padded.length / 64)).foldl
    (fun st i => sha256Compress st ((padded.drop (64 * i)).take 64)) sha256Init)

/-- Lowercase hexadecimal digit byte for a value below 16 (`{:02x}`). -/
def hexDigit (d : Nat) : Nat := if d < 10 then 48 + d else 87 + d

/-- Lowercase hex rendering of a byte string, two digits per byte, as in
`format!("{:02x}", byte)` collected over the digest. -/
def bytesToHex : List Nat → ByteStr
  | [] => []
  | b :: rest => hexDigit (b / 16) :: hexDigit (b % 16) :: bytesToHex rest

/-! ## The `FileInfo` record (`src/info_storages/models/file_info.rs`) -/

/-- Model of `chrono::DateTime<Utc>`: seconds since the epoch plus a sub-second
nanosecond component. -/
structure DateTimeUtc where
  secs : Int
  nanos : Nat
deriving DecidableEq

/-- The `RustusError` variant reachable from the embedded code. -/
inductive RustusError where
  | UnableToWrite : ByteStr → RustusError
deriving DecidableEq

/-- Information about file (`FileInfo`).  The `sha2::Sha256` accumulator is
modelled by the list of bytes fed to it so far; `Sha256::new()` is `[]`. -/
structure FileInfo where
  id : ByteStr
  offset : Nat
  length : Option Nat
  path : Option ByteStr
  created_at : DateTimeUtc
  deferred_size : Bool
  is_partial : Bool
  is_final : Bool
  parts : Option (List ByteStr)
  storage : ByteStr
  metadata : Metadata
  finalized_sha256 : Option ByteStr
  sha256 : List Nat
deriving DecidableEq

/-- Embedding of `FileInfo::new`.  `created_at` is `chrono::Utc::now()` in the source;
the clock reading is passed in as `now`. -/
def FileInfo.new (file_id : ByteStr) (length : Option Nat) (path : Option ByteStr)
    (storage : ByteStr) (initial_metadata : Option Metadata) (now : DateTimeUtc) :
    FileInfo :=
  let id := file_id
  let deferred_size := if length.isSome then false else true
  let metadata :=
    match initial_metadata with
    | some meta => meta
    | none => []
  { id := id, path := path, length := length, storage := storage,
    metadata := metadata, deferred_size := deferred_size, offset := 0,
    is_final := false, is_partial := false, parts := none, created_at := now,
    finalized_sha256 := none, sha256 := [] }

/-- Embedding of `FileInfo::get_metadata_string`: pushes `"{key} {base64(value)}"` for
every map entry, returns `None` when the list is empty, otherwise the
entries joined with `","`. -/
def FileInfo.get_metadata_string (self : FileInfo) : Option ByteStr :=
  let result := self.metadata.foldl
    (fun result kv => result ++ [kv.1 ++ 32 :: b64EncodeBytes kv.2]) []
  if result.isEmpty then none else some (joinWith 44 result)

/-- The bytes of `"filename"`. -/
def filenameKey : ByteStr := [102, 105, 108, 101, 110, 97, 109, 101]

/-- Model of `HashMap::get` on the association-list model of the map. -/
def hashMapGet (m : Metadata) (k : ByteStr) : Option ByteStr :=
  (m.find? (fun kv => kv.1 == k)).map (fun kv => kv.2)

/-- Embedding of `FileInfo::get_filename`: `self.metadata.get("filename").unwrap_or(&self.id)`. -/
def FileInfo.get_filename (self : FileInfo) : ByteStr :=
  (hashMapGet self.metadata filenameKey).getD self.id

/-- The serde wire form of `FileInfo`: exactly the serialized fields.
`sha256` is `#[serde(skip_serializing, skip_deserializing)]` and has no
wire field; `created_at` is serialized `with = "ts_seconds"`, i.e. as its
whole-second timestamp. -/
structure FileInfoWire where
  id : ByteStr
  offset : Nat
  length : Option Nat
  path : Option ByteStr
  created_at : Int
  deferred_size : Bool
  is_partial : Bool
  is_final : Bool
  parts : Option (List ByteStr)
  storage : ByteStr
  metadata : Metadata
  finalized_sha256 : Option ByteStr
deriving DecidableEq

/-- Embedding of `FileInfo::json`: `serde_json::to_string`, modelled at the JSON data
level.  (The `spawn_blocking` wrapper and its error path are transport
concerns; serializing these field types cannot fail.) -/
def FileInfo.json (self : FileInfo) : FileInfoWire :=
  { id := self.id, offset := self.offset, length := self.length,
    path := self.path, created_at := self.created_at.secs,
    deferred_size := self.deferred_size, is_partial := FileInfo.is_partial self,
    is_final := self.is_final, parts := self.parts, storage := self.storage,
    metadata := self.metadata, finalized_sha256 := self.finalized_sha256 }

/-- Embedding of `FileInfo::from_json`: `serde_json::from_str` on a wire object.  The
skipped `sha256` field takes its `Default` value (a fresh accumulator);
`ts_seconds` deserializes the whole-second timestamp. -/
def FileInfo.from_json (data : FileInfoWire) : FileInfo :=
  { id := data.id, offset := data.offset, length := data.length,
    path := data.path, created_at := ⟨data.created_at, 0⟩,
    deferred_size := data.deferred_size, is_partial := FileInfoWire.is_partial data,
    is_final := data.is_final, parts := data.parts, storage := data.storage,
    metadata := data.metadata, finalized_sha256 := data.finalized_sha256,
    sha256 := [] }

/-- Embedding of `FileInfo::finalize_sha256`: digest of a clone of the accumulator,
rendered as lowercase hex, stored into `finalized_sha256`; the function
returns `Ok(())`. -/
def FileInfo.finalize_sha256 (self : FileInfo) : FileInfo × Except RustusError Unit :=
  let hash := sha256digest self.sha256
  let hex_str := bytesToHex hash
  ({ self with finalized_sha256 := some hex_str }, Except.ok ())

/-! ## Protocol dispatcher (`src/protocol/mod.rs`) -/

/-- The switches of `RustusConf::tus_extensions`.  Modelled from the spec:
the `Extensions` enum is declared outside the provided source files; the
spec lists creation, creation-with-upload, deferred-length, concatenation,
termination and getting as the togglable extensions. -/
inductive Extensions where
  | Getting
  | Creation
  | Termination
  | CreationWithUpload
  | CreationDeferLength
  | Concatenation
deriving DecidableEq

/-- One handler group registered on the actix `ServiceConfig` by a
submodule's `add_extension`. -/
inductive Route where
  | core
  | creation
  | termination
  | getting
deriving DecidableEq

/-- Embedding of `protocol::setup`: iterates the configured extensions, registering the
matching handler groups, then unconditionally registers the core
(Query/Append) handlers. -/
def setup (tus_extensions : List Extensions) : List Route :=
  (tus_extensions.foldl
    (fun web_app extension =>
      match extension with
      | Extensions.Creation => web_app ++ [Route.creation]
      | Extensions.Termination => web_app ++ [Route.termination]
      | Extensions.Getting => web_app ++ [Route.getting]
      | _ => web_app)
    []) ++ [Route.core]

/-! ## The spec's decoding direction for the metadata string -/

/-- Modelled from the spec: decode one already-comma-split entry list —
"split each entry on the first space into key and base64 value,
base64-decode the value".  This direction has no counterpart in the
source. -/
def specDecodeEntries : List ByteStr → Option Metadata
  | [] => some []
  | e :: rest =>
    match splitFirstByte 32 e with
    | none => none
    | some kv =>
      match b64DecodeBytes kv.2 with
      | none => none
      | some v =>
        match specDecodeEntries rest with
        | none => none
        | some tail => some ((kv.1, v) :: tail)

/-- Modelled from the spec: full decoder of a metadata string — "split the
string produced by `get_metadata_string` on commas, split each entry on
the first space into key and base64 value, base64-decode the value". -/
def specDecodeMetadataString (s : ByteStr) : Option Metadata :=
  specDecodeEntries (splitOnByte 44 s)

/-- A map entry as rendered by `get_metadata_string`:
`format!("{key} {encoded_value}")`. -/
def renderEntry (kv : ByteStr × ByteStr) : ByteStr :=
  kv.1 ++ 32 :: b64EncodeBytes kv.2

/-- A lowercase hexadecimal digit byte (`0`–`9` or `a`–`f`). -/
def isLowerHexDigit (c : Nat) : Prop := (48 ≤ c ∧ c ≤ 57) ∨ (97 ≤ c ∧ c ≤ 102)

/-! ## Sample records for witnesses and counterexamples -/

/-- A concrete record: id `"id"`, length 10, path `"p"`, storage `"s"`,
metadata `{"k": "v"}`. -/
def sampleInfo : FileInfo :=
  FileInfo.new [105, 100] (some 10) (some [112]) [115] (some [([107], [118])]) ⟨1000, 0⟩

/-- Variant of `sampleInfo` with one byte fed to the hash accumulator. -/
def sampleInfoAcc : FileInfo := { sampleInfo with sha256 := [0] }

/-- Variant of `sampleInfo` with metadata `{"filename": "f"}`. -/
def sampleInfoNamed : FileInfo := { sampleInfo with metadata := [(filenameKey, [102])] }

/-- A record whose single metadata key `"a b"` contains a space. -/
def sampleInfoBadKey : FileInfo :=
  FileInfo.new [105] none none [115] (some [([97, 32, 98], [118])]) ⟨0, 0⟩

/-- The invariant `deferred_size == (length is absent)`. -/
def sizeInvariant (fi : FileInfo) : Prop := fi.deferred_size = fi.length.isNone

theorem b64d_b64c (s : Nat) (h : s < 64) : b64d (b64c s) = some s := by
  interval_cases s <;> decide

theorem b64c_ne_pad (s : Nat) : b64c s ≠ 61 := by
  unfold b64c; split <;> [omega; split] <;> [omega; split] <;> [omega; split] <;> omega

theorem b64c_ne_space (s : Nat) : b64c s ≠ 32 := by
  unfold b64c; split <;> [omega; split] <;> [omega; split] <;> [omega; split] <;> omega

theorem b64c_ne_comma (s : Nat) : b64c s ≠ 44 := by
  unfold b64c; split <;> [omega; split] <;> [omega; split] <;> [omega; split] <;> omega

/-- Every byte of a base64 encoding is an alphabet byte or the pad `=`. -/
theorem b64EncodeBytes_mem (bs : List Nat) :
    ∀ x ∈ b64EncodeBytes bs, x = 61 ∨ ∃ s, x = b64c s := by
  induction bs using b64EncodeBytes.induct with
  | case1 a b c rest ih =>
    intro x hx
    simp only [b64EncodeBytes, List.mem_cons] at hx
    rcases hx with rfl | rfl | rfl | rfl | hx
    · exact Or.inr ⟨_, rfl⟩
    · exact Or.inr ⟨_, rfl⟩
    · exact Or.inr ⟨_, rfl⟩
    · exact Or.inr ⟨_, rfl⟩
    · exact ih x hx
  | case2 a b =>
    intro x hx
    simp only [b64EncodeBytes, List.mem_cons, List.not_mem_nil, or_false] at hx
    rcases hx with rfl | rfl | rfl | rfl
    · exact Or.inr ⟨_, rfl⟩
    · exact Or.inr ⟨_, rfl⟩
    · exact Or.inr ⟨_, rfl⟩
    · exact Or.inl rfl
  | case3 a =>
    intro x hx
    simp only [b64EncodeBytes, List.mem_cons, List.not_mem_nil, or_false] at hx
    rcases hx with rfl | rfl | rfl | rfl
    · exact Or.inr ⟨_, rfl⟩
    · exact Or.inr ⟨_, rfl⟩
    · exact Or.inl rfl
    · exact Or.inl rfl
  | case4 => intro x hx; simp [b64EncodeBytes] at hx

theorem b64EncodeBytes_not_space (bs : List Nat) : 32 ∉ b64EncodeBytes bs := by
  intro h
  rcases b64EncodeBytes_mem bs 32 h with h' | ⟨s, h'⟩
  · omega
  · exact b64c_ne_space s h'.symm

theorem b64EncodeBytes_not_comma (bs : List Nat) : 44 ∉ b64EncodeBytes bs := by
  intro h
  rcases b64EncodeBytes_mem bs 44 h with h' | ⟨s, h'⟩
  · omega
  · exact b64c_ne_comma s h'.symm

/-- Decoding inverts encoding on byte strings whose bytes are below 256. -/
theorem b64_roundtrip (bs : List Nat) :
    (∀ b ∈ bs, b < 256) → b64DecodeBytes (b64EncodeBytes bs) = some bs := by
  induction bs using b64EncodeBytes.induct with
  | case1 a b c rest ih =>
    intro h
    have ha : a < 256 := h a (by simp)
    have hb : b < 256 := h b (by simp)
    have hc : c < 256 := h c (by simp)
    have ih' := ih (fun x hx => h x (by simp [hx]))
    simp only [b64DecodeBytes]
    rw [if_neg, if_neg]
    · rw [b64d_b64c _ (by omega), b64d_b64c _ (by omega), b64d_b64c _ (by omega),
        b64d_b64c _ (by omega), ih']
      simp only [Option.some.injEq, List.cons.injEq, and_true]
      omega
    · intro hcontra
      exact b64c_ne_pad _ hcontra.1
    · intro hcontra
      exact b64c_ne_pad _ hcontra.1
  | case2 a b =>
    intro h
    have ha : a < 256 := h a (by simp)
    have hb : b < 256 := h b (by simp)
    simp only [b64DecodeBytes]
    rw [if_neg, if_pos (by simp)]
    · rw [b64d_b64c _ (by omega), b64d_b64c _ (by omega), b64d_b64c _ (by omega)]
      simp only [Option.some.injEq, List.cons.injEq, and_true]
      omega
    · intro hcontra
      exact b64c_ne_pad _ hcontra.1
  | case3 a =>
    intro h
    have ha : a < 256 := h a (by simp)
    simp only [b64DecodeBytes]
    rw [if_pos (by simp), b64d_b64c _ (by omega), b64d_b64c _ (by omega)]
    simp only [Option.some.injEq, List.cons.injEq, List.nil_eq, and_true]
    omega
  | case4 => intro h; simp [b64EncodeBytes, b64DecodeBytes]

theorem splitOnByte_ne_nil (sep : Nat) (bs : ByteStr) : splitOnByte sep bs ≠ [] := by
  induction bs with
  | nil => simp [splitOnByte]
  | cons b rest ih =>
    simp only [splitOnByte]
    split
    · simp
    · match hsplit : splitOnByte sep rest with
      | [] => simp
      | p :: ps => simp

theorem splitOnByte_not_mem (sep : Nat) (bs : ByteStr) (h : sep ∉ bs) :
    splitOnByte sep bs = [bs] := by
  induction bs with
  | nil => simp [splitOnByte]
  | cons b rest ih =>
    simp only [List.mem_cons, not_or] at h
    simp only [splitOnByte, if_neg (Ne.symm h.1), ih h.2]

theorem splitOnByte_sep_append (sep : Nat) (x rest : ByteStr) (h : sep ∉ x) :
    splitOnByte sep (x ++ sep :: rest) = x :: splitOnByte sep rest := by
  induction x with
  | nil => simp [splitOnByte]
  | cons b bs ih =>
    simp only [List.mem_cons, not_or] at h
    simp only [List.cons_append, splitOnByte, if_neg (Ne.symm h.1), List.append_eq]
    rw [ih h.2]

theorem splitOnByte_joinWith (sep : Nat) (pieces : List ByteStr)
    (hne : pieces ≠ []) (h : ∀ p ∈ pieces, sep ∉ p) :
    splitOnByte sep (joinWith sep pieces) = pieces := by
  induction pieces with
  | nil => exact absurd rfl hne
  | cons x xs ih =>
    match xs, ih with
    | [], _ => simp [joinWith, splitOnByte_not_mem sep x (h x (by simp))]
    | y :: ys, ih =>
      have hx : sep ∉ x := h x (by simp)
      rw [joinWith, splitOnByte_sep_append sep x _ hx,
        ih (fun hcon => List.noConfusion hcon) (fun p hp => h p (by simp [hp]))]
      exact fun hcon => List.noConfusion hcon

theorem splitFirstByte_append (sep : Nat) (k v : ByteStr) (h : sep ∉ k) :
    splitFirstByte sep (k ++ sep :: v) = some (k, v) := by
  induction k with
  | nil => simp [splitFirstByte]
  | cons b bs ih =>
    simp only [List.mem_cons, not_or] at h
    simp only [List.cons_append, splitFirstByte, if_neg (Ne.symm h.1), List.append_eq]
    rw [ih h.2]
    rfl

example : sha256digest [] =
    [227, 176, 196, 66, 152, 252, 28, 20, 154, 251, 244, 200,
     153, 111, 185, 36, 39, 174, 65, 228, 100, 155, 147, 76,
     164, 149, 153, 27, 120, 82, 184, 85] := by decide

example : sha256digest [97, 98, 99] =
    [186, 120, 22, 191, 143, 1, 207, 234, 65, 65, 64, 222,
     93, 174, 34, 35, 176, 3, 97, 163, 150, 23, 122, 156,
     180, 16, 255, 97, 242, 0, 21, 173] := by decide

/-! ## Characterization of `get_metadata_string` -/

theorem foldl_push_eq_map {α β : Type} (f : α → β) (l : List α) (acc : List β) :
    l.foldl (fun acc x => acc ++ [f x]) acc = acc ++ l.map f := by
  induction l generalizing acc with
  | nil => simp
  | cons x xs ih => simp [List.foldl_cons, ih]

theorem get_metadata_string_eq (fi : FileInfo) :
    fi.get_metadata_string =
      if fi.metadata = [] then none
      else some (joinWith 44 (fi.metadata.map renderEntry)) := by
  unfold FileInfo.get_metadata_string
  rw [foldl_push_eq_map]
  simp only [List.nil_append, List.isEmpty_iff, List.map_eq_nil_iff, renderEntry]
  rfl

theorem renderEntry_not_comma (kv : ByteStr × ByteStr) (hk : 44 ∉ kv.1) :
    44 ∉ renderEntry kv := by
  simp only [renderEntry, List.mem_append, List.mem_cons, not_or]
  exact ⟨hk, by omega, b64EncodeBytes_not_comma kv.2⟩

theorem specDecodeEntries_map (md : Metadata)
    (hk : ∀ kv ∈ md, 32 ∉ kv.1) (hv : ∀ kv ∈ md, ∀ b ∈ kv.2, b < 256) :
    specDecodeEntries (md.map renderEntry) = some md := by
  induction md with
  | nil => rfl
  | cons kv rest ih =>
    simp only [List.map_cons, specDecodeEntries, renderEntry,
      splitFirstByte_append 32 kv.1 (b64EncodeBytes kv.2) (hk kv (by simp)),
      b64_roundtrip kv.2 (hv kv (by simp)),
      ih (fun p hp => hk p (by simp [hp])) (fun p hp => hv p (by simp [hp]))]

/-! ## Shape of the hex digest -/

theorem hexDigit_isLowerHex (d : Nat) (h : d < 16) : isLowerHexDigit (hexDigit d) := by
  unfold isLowerHexDigit hexDigit
  split <;> omega

theorem bytesToHex_length (bs : List Nat) : (bytesToHex bs).length = 2 * bs.length := by
  induction bs with
  | nil => rfl
  | cons b rest ih => simp [bytesToHex, ih]; omega

theorem bytesToHex_mem (bs : List Nat) (h : ∀ b ∈ bs, b < 256) :
    ∀ c ∈ bytesToHex bs, isLowerHexDigit c := by
  induction bs with
  | nil => intro c hc; simp [bytesToHex] at hc
  | cons b rest ih =>
    intro c hc
    have hb : b < 256 := h b (by simp)
    simp only [bytesToHex, List.mem_cons] at hc
    rcases hc with rfl | rfl | hc
    · exact hexDigit_isLowerHex _ (by omega)
    · exact hexDigit_isLowerHex _ (by omega)
    · exact ih (fun x hx => h x (by simp [hx])) c hc

theorem sha256StateBytes_length (st : Sha256State) : (sha256StateBytes st).length = 32 := by
  simp [sha256StateBytes, bytesBE4]

theorem sha256StateBytes_lt (st : Sha256State) : ∀ b ∈ sha256StateBytes st, b < 256 := by
  intro b hb
  simp only [sha256StateBytes, bytesBE4, List.mem_append, List.mem_cons,
    List.not_mem_nil, or_false] at hb
  omega

theorem sha256digest_length (msg : List Nat) : (sha256digest msg).length = 32 := by
  simp only [sha256digest]
  exact sha256StateBytes_length _

theorem sha256digest_lt (msg : List Nat) : ∀ b ∈ sha256digest msg, b < 256 := by
  simp only [sha256digest]
  exact sha256StateBytes_lt _

/-! ## Claims -/

/-- C1 (amended): for every metadata map whose keys contain no space and no
comma byte (values unrestricted: their bytes may encode commas or spaces),
decoding the string produced by `get_metadata_string` — split on commas,
split each entry on the first space into key and base64 value,
base64-decode the value — reconstructs the original key-to-value map
exactly, and the output is `None` exactly for the empty map. -/
theorem metadata_string_roundtrip (fi : FileInfo)
    (hk : ∀ kv ∈ fi.metadata, 32 ∉ kv.1 ∧ 44 ∉ kv.1)
    (hv : ∀ kv ∈ fi.metadata, ∀ b ∈ kv.2, b < 256) :
    (fi.get_metadata_string = none ↔ fi.metadata = []) ∧
    ∀ s, fi.get_metadata_string = some s →
      specDecodeMetadataString s = some fi.metadata := by
  constructor
  · rw [get_metadata_string_eq]
    split <;> simp_all
  · intro s hs
    by_cases hmd : fi.metadata = []
    · rw [get_metadata_string_eq, if_pos hmd] at hs
      exact absurd hs (by simp)
    · rw [get_metadata_string_eq, if_neg hmd, Option.some.injEq] at hs
      subst hs
      unfold specDecodeMetadataString
      rw [splitOnByte_joinWith 44 (fi.metadata.map renderEntry) (by simpa using hmd)
        (fun p hp => by
          obtain ⟨kv, hkv, rfl⟩ := List.mem_map.mp hp
          exact renderEntry_not_comma kv (hk kv hkv).2)]
      exact specDecodeEntries_map fi.metadata (fun kv h => (hk kv h).1) hv

/-- C1 witness: for the map `{"k": "v"}` the produced string is
`"k dg=="` and decoding it reconstructs the map. -/
theorem metadata_string_roundtrip_witness :
    specDecodeMetadataString [107, 32, 100, 103, 61, 61] = some sampleInfo.metadata :=
  (metadata_string_roundtrip sampleInfo (by decide) (by decide)).2 _ (by decide)

/-- C1 counterexample: for the map `{"a b": "v"}`, whose key contains a
space, the produced string is `"a b dg=="` and the decode procedure does
not reconstruct the map (it fails on the non-base64 value `"b dg=="`). -/
theorem metadata_string_roundtrip_cex :
    sampleInfoBadKey.get_metadata_string = some [97, 32, 98, 32, 100, 103, 61, 61] ∧
    specDecodeMetadataString [97, 32, 98, 32, 100, 103, 61, 61] ≠
      some sampleInfoBadKey.metadata := by decide

/-- C2: `get_metadata_string` returns `None` exactly when the metadata map
is empty, and otherwise `Some` of the entries, each rendered as the key, a
single space and the standard-base64 encoding of the value, joined by
single commas (in the map's iteration order). -/
theorem get_metadata_string_spec (fi : FileInfo) :
    (fi.get_metadata_string = none ↔ fi.metadata = []) ∧
    (fi.metadata ≠ [] →
      fi.get_metadata_string = some (joinWith 44 (fi.metadata.map renderEntry))) := by
  rw [get_metadata_string_eq]
  constructor
  · split <;> simp_all
  · intro h
    rw [if_neg h]

/-- C2 witness at the one-entry map `{"k": "v"}`. -/
theorem get_metadata_string_spec_witness :
    sampleInfo.get_metadata_string =
      some (joinWith 44 (sampleInfo.metadata.map renderEntry)) :=
  (get_metadata_string_spec sampleInfo).2 (by decide)

/-- C3: `FileInfo::new` initializes `offset = 0`, `is_final = false`,
`is_partial = false`, `parts = None`, no finalized hash, a fresh hash
accumulator, `deferred_size` false exactly when a length is supplied,
metadata the supplied map (empty when absent), and `id`, `path`, `storage`
equal to the arguments. -/
theorem new_spec (file_id : ByteStr) (length : Option Nat) (path : Option ByteStr)
    (storage : ByteStr) (initial_metadata : Option Metadata) (now : DateTimeUtc) :
    let fi := FileInfo.new file_id length path storage initial_metadata now
    fi.offset = 0 ∧ fi.is_final = false ∧ FileInfo.is_partial fi = false ∧ fi.parts = none ∧
      fi.finalized_sha256 = none ∧ fi.sha256 = [] ∧
      (fi.deferred_size = false ↔ length.isSome) ∧
      (fi.deferred_size = true ↔ length = none) ∧
      fi.metadata = initial_metadata.getD [] ∧
      fi.id = file_id ∧ fi.path = path ∧ fi.storage = storage := by
  cases length <;> cases initial_metadata <;> simp [FileInfo.new]

/-- C4 (amended): `finalize_sha256` computes the digest of the current
accumulator, stores its lowercase hex encoding in `finalized_sha256`, and
returns `Ok(())` — the unit success value, not the hex string; because the
accumulator is cloned rather than reset, it is left unchanged, and a
repeated call stores the same previously computed value again. -/
theorem finalize_sha256_spec (fi : FileInfo) :
    (fi.finalize_sha256).1.finalized_sha256 =
        some (bytesToHex (sha256digest fi.sha256)) ∧
    (fi.finalize_sha256).2 = Except.ok () ∧
    (fi.finalize_sha256).1.sha256 = fi.sha256 ∧
    ((fi.finalize_sha256).1.finalize_sha256).1.finalized_sha256 =
      (fi.finalize_sha256).1.finalized_sha256 :=
  ⟨rfl, rfl, rfl, rfl⟩

/-- C4 counterexample: two records that differ only in accumulator state
get the same returned value from `finalize_sha256` although the stored hex
digests differ — so the function does not return the hex string to the
caller (its returned value is `Ok(())` and carries no hash). -/
theorem finalize_sha256_cex :
    (FileInfo.finalize_sha256 sampleInfo).2 = (FileInfo.finalize_sha256 sampleInfoAcc).2 ∧
    (FileInfo.finalize_sha256 sampleInfo).1.finalized_sha256 ≠
      (FileInfo.finalize_sha256 sampleInfoAcc).1.finalized_sha256 :=
  ⟨rfl, by decide⟩

/-- C5: the serialized form carries no hash-accumulator state (records
differing only in the accumulator serialize identically), and the record
deserialized from the serialized form has a fresh accumulator while the
fields `id`, `offset`, `length`, `path`, `deferred_size`, `is_partial`,
`is_final`, `parts`, `storage`, `metadata` and `finalized_sha256` are all
preserved. -/
theorem json_roundtrip (r : FileInfo) (acc : List Nat) :
    FileInfo.json { r with sha256 := acc } = FileInfo.json r ∧
    (FileInfo.from_json (FileInfo.json r)).sha256 = [] ∧
    (FileInfo.from_json (FileInfo.json r)).id = r.id ∧
    (FileInfo.from_json (FileInfo.json r)).offset = r.offset ∧
    (FileInfo.from_json (FileInfo.json r)).length = r.length ∧
    (FileInfo.from_json (FileInfo.json r)).path = r.path ∧
    (FileInfo.from_json (FileInfo.json r)).deferred_size = r.deferred_size ∧
    FileInfo.is_partial (FileInfo.from_json (FileInfo.json r)) = FileInfo.is_partial r ∧
    (FileInfo.from_json (FileInfo.json r)).is_final = r.is_final ∧
    (FileInfo.from_json (FileInfo.json r)).parts = r.parts ∧
    (FileInfo.from_json (FileInfo.json r)).storage = r.storage ∧
    (FileInfo.from_json (FileInfo.json r)).metadata = r.metadata ∧
    (FileInfo.from_json (FileInfo.json r)).finalized_sha256 = r.finalized_sha256 :=
  ⟨rfl, rfl, rfl, rfl, rfl, rfl, rfl, rfl, rfl, rfl, rfl, rfl, rfl⟩

/-- C6: `deferred_size == (length is absent)` holds for every record built
by `FileInfo::new`, and is preserved by `finalize_sha256` and by a
serialize-then-deserialize round trip. -/
theorem size_invariant_preserved :
    (∀ file_id length path storage initial_metadata now,
      sizeInvariant (FileInfo.new file_id length path storage initial_metadata now)) ∧
    (∀ r : FileInfo, sizeInvariant r →
      sizeInvariant (r.finalize_sha256).1 ∧
        sizeInvariant (FileInfo.from_json (FileInfo.json r))) := by
  constructor
  · intro file_id length path storage initial_metadata now
    cases length <;> simp [sizeInvariant, FileInfo.new]
  · intro r h
    exact ⟨h, h⟩

/-- C6 witness: the invariant propagated through `new` and then
`finalize_sha256` and the round trip at a concrete record. -/
theorem size_invariant_preserved_witness :
    sizeInvariant ((FileInfo.new [] none none [] none ⟨0, 0⟩).finalize_sha256).1 ∧
    sizeInvariant (FileInfo.from_json (FileInfo.json
      (FileInfo.new [] none none [] none ⟨0, 0⟩))) :=
  size_invariant_preserved.2 _
    (size_invariant_preserved.1 [] none none [] none ⟨0, 0⟩)

/-- C7: `setup` registers the core (Query/Append) handlers for every
configured extension list — core registration is appended unconditionally,
independent of `tus_extensions`. -/
theorem setup_core_unconditional (tus_extensions : List Extensions) :
    Route.core ∈ setup tus_extensions ∧
    ∃ configured, setup tus_extensions = configured ++ [Route.core] :=
  ⟨by simp [setup], _, rfl⟩

/-- C8: `get_filename` returns the metadata value under `"filename"` when
present, and the session id otherwise. -/
theorem get_filename_spec (fi : FileInfo) (v : ByteStr) :
    (hashMapGet fi.metadata filenameKey = some v → fi.get_filename = v) ∧
    (hashMapGet fi.metadata filenameKey = none → fi.get_filename = fi.id) := by
  constructor <;> intro h <;> simp [FileInfo.get_filename, h]

/-- C8 witness: a record with `{"filename": "f"}` yields `"f"`; a record
without the key yields its id. -/
theorem get_filename_spec_witness :
    sampleInfoNamed.get_filename = [102] ∧ sampleInfo.get_filename = sampleInfo.id :=
  ⟨(get_filename_spec sampleInfoNamed [102]).1 (by decide),
   (get_filename_spec sampleInfo []).2 (by decide)⟩

/-- C9: the serde round trip truncates `created_at` to whole seconds
(`ts_seconds`), and is the identity on `created_at` exactly when the
sub-second component is zero. -/
theorem created_at_truncation (r : FileInfo) :
    (FileInfo.from_json (FileInfo.json r)).created_at = ⟨r.created_at.secs, 0⟩ ∧
    ((FileInfo.from_json (FileInfo.json r)).created_at = r.created_at ↔
      r.created_at.nanos = 0) := by
  have key : ∀ t : DateTimeUtc, ((⟨t.secs, 0⟩ : DateTimeUtc) = t ↔ t.nanos = 0) := by
    intro t
    cases t with
    | mk s n => simp [eq_comm]
  exact ⟨rfl, key r.created_at⟩

/-- C10: after `finalize_sha256`, the finalized hash field holds a string
of exactly 64 bytes, each a lowercase hexadecimal digit. -/
theorem finalize_sha256_hex_shape (fi : FileInfo) :
    ∃ s, (fi.finalize_sha256).1.finalized_sha256 = some s ∧
      s.length = 64 ∧ ∀ c ∈ s, isLowerHexDigit c := by
  refine ⟨bytesToHex (sha256digest fi.sha256), rfl, ?_,
    bytesToHex_mem _ (sha256digest_lt _)⟩
  rw [bytesToHex_length, sha256digest_length]
